import Mathlib

/-
  Verification of the fractional-derivative approximation engine and the
  hyperelastic constitutive-law composition code of this repository.

  The hyperelastic definitions are translated from
  src/src/biomechanics/models/hyperelastic.py.  The Caputo engine
  ( CaputoInitialize / caputo_derivative_linear) lives in the repository's
  `biomechanics` package, which is not among the provided source files; it is
  modelled from the specification, as marked on each definition.
  Machine floats are modelled as real numbers.
-/

open Classical

/-- Modelled from the spec: error raised on invalid configuration of the
kernel approximator (the `biomechanics` module defining it is missing from the
provided sources). -/
inductive DomainError : Type
  | domainError : DomainError
deriving DecidableEq

/-- Modelled from the spec: error raised during differentiation when a sample
time exceeds the fitted horizon or times are not monotonically increasing. -/
inductive RangeError : Type
  | rangeError : RangeError
deriving DecidableEq

/-- Error raised by get_change_of_basis_tensor when the cross product of the
two direction vectors is zero. -/
inductive ValueError : Type
  | valueError : ValueError
deriving DecidableEq

/-- Modelled from the spec: the immutable parameter set produced by the
kernel approximator: the fractional order, the fitted horizon, and the ordered
sequence of (weight, decay-rate) pairs of the sum-of-exponentials
approximation. -/
structure FractionalKernelParameters : Type where
  alpha : ℝ
  horizon : ℝ
  terms : List (ℝ × ℝ)

/-- Modelled from the spec: the kernel-fitting rule of the `biomechanics`
module is missing from the provided sources and the spec leaves its exact
quadrature a design choice.  Following the spec's description, the singular
kernel t^(-alpha)/Gamma(1-alpha) is approximated through its Laplace
(Gamma-function) integral representation, discretized at `Np` quadrature
nodes spread geometrically across the decay-rate range starting at
1/horizon, giving decay rates q_i = 2^i/horizon and quadrature weights
w_i = q_i^alpha * log 2 / (Gamma(alpha) * Gamma(1-alpha)). -/
noncomputable def pronyFit (alpha horizon : ℝ) (Np : ℕ) : List (ℝ × ℝ) :=
  (List.range Np).map fun i =>
    let q : ℝ := (2 : ℝ) ^ i / horizon
    (q ^ alpha * Real.log 2 / (Real.Gamma alpha * Real.Gamma (1 - alpha)), q)

/-- Modelled from the spec: `initialize(alpha, horizon, terms)` of the
KernelApproximator (the `biomechanics` module defining CaputoInitialize is
missing from the provided sources).  Validates 0 < alpha < 1, horizon > 0 and
Np > 0, failing with DomainError otherwise, and returns the fitted
FractionalKernelParameters. -/
noncomputable def CaputoInitialize (alpha horizon : ℝ) (Np : ℕ) :
    Except DomainError FractionalKernelParameters :=
  if 0 < alpha ∧ alpha < 1 ∧ 0 < horizon ∧ 0 < Np then
    Except.ok ⟨alpha, horizon, pronyFit alpha horizon Np⟩
  else
    Except.error DomainError.domainError

/-- Modelled from the spec: one memory-variable update across a step of size
`dt` with signal increment `df`, for the kernel term `term = (w, q)`:
`memory ← exp(-q*dt) * memory + w * g(df, dt, q)` where `g` is the exact
contribution of the linear segment between samples,
`g = (df/dt) * (1 - exp(-q*dt)) / q`. -/
noncomputable def memStep (dt df : ℝ) (term : ℝ × ℝ) (mem : ℝ) : ℝ :=
  Real.exp (-(term.2 * dt)) * mem +
    term.1 * (df / dt * ((1 - Real.exp (-(term.2 * dt))) / term.2))

/-- Modelled from the spec: update every memory variable across one step. -/
noncomputable def stepMemory (terms : List (ℝ × ℝ)) (mems : List ℝ)
    (dt df : ℝ) : List ℝ :=
  List.zipWith (fun term mem => memStep dt df term mem) terms mems

/-- Modelled from the spec: the per-sample recurrence of the CaputoOperator.
Given the previous sample `prev`, the current memory variables `mems` and the
remaining samples, it produces one derivative estimate per remaining sample:
the sum of the updated memory variables. -/
noncomputable def caputoRun (terms : List (ℝ × ℝ)) (prev : ℝ × ℝ)
    (mems : List ℝ) : List (ℝ × ℝ) → List ℝ
  | [] => []
  | s :: rest =>
      let dt := s.1 - prev.1
      let df := s.2 - prev.2
      let mems2 := stepMemory terms mems dt df
      mems2.sum :: caputoRun terms s mems2 rest

/-- Modelled from the spec: the output sequence of the CaputoOperator on a
list of (time, value) samples: the first output is defined to be zero (no
history), the memory variables start at zero, and each later sample yields
the sum of the updated memory variables. -/
noncomputable def caputoOutputs (params : FractionalKernelParameters) :
    List (ℝ × ℝ) → List ℝ
  | [] => []
  | s :: rest =>
      0 :: caputoRun params.terms s (List.replicate params.terms.length 0) rest

/-- Modelled from the spec: precondition on the sample times of a
`differentiate` call: every time lies within [0, horizon] and the times are
strictly increasing. -/
def timesOK (horizon : ℝ) (ts : List ℝ) : Prop :=
  (∀ t ∈ ts, 0 ≤ t ∧ t ≤ horizon) ∧ ts.Chain' (· < ·)

/-- Modelled from the spec: `differentiate(params, samples)` of the
CaputoOperator (the `biomechanics` module defining caputo_derivative_linear
is missing from the provided sources).  The sample times are validated
against the fitted horizon and for monotonicity; any violation fails the
whole call with RangeError, otherwise the full output sequence is returned.
The step sizes are recovered from the strictly increasing times as
dt_n = t_n - t_(n-1); the sentinel first step is irrelevant because the
first output is defined to be zero. -/
noncomputable def caputo_derivative_linear (params : FractionalKernelParameters)
    (samples : List (ℝ × ℝ)) : Except RangeError (List ℝ) :=
  if timesOK params.horizon (samples.map Prod.fst) then
    Except.ok (caputoOutputs params samples)
  else
    Except.error RangeError.rangeError

/-! ### Theorems about the kernel approximator -/

/-- C4: the initialize operation ( CaputoInitialize) raises DomainError when
and only when alpha lies outside the open interval (0,1), horizon is
non-positive, or the term count is non-positive. -/
theorem caputo_initialize_domain_error_iff (alpha horizon : ℝ) (Np : ℕ) :
    CaputoInitialize alpha horizon Np = Except.error DomainError.domainError ↔
      alpha ≤ 0 ∨ 1 ≤ alpha ∨ horizon ≤ 0 ∨ Np = 0 := by
  constructor
  · intro he
    by_contra hcon
    push_neg at hcon
    obtain ⟨h1, h2, h3, h4⟩ := hcon
    have hcond : 0 < alpha ∧ alpha < 1 ∧ 0 < horizon ∧ 0 < Np :=
      ⟨h1, h2, h3, Nat.pos_of_ne_zero h4⟩
    simp only [CaputoInitialize, if_pos hcond] at he
    exact Except.noConfusion he
  · intro hd
    have hc : ¬ (0 < alpha ∧ alpha < 1 ∧ 0 < horizon ∧ 0 < Np) := by
      rintro ⟨h1, h2, h3, h4⟩
      rcases hd with h | h | h | h
      · linarith
      · linarith
      · linarith
      · omega
    simp only [CaputoInitialize, if_neg hc]

/-- C5: for every valid configuration, every decay rate in the returned
FractionalKernelParameters is strictly positive. -/
theorem caputo_initialize_decay_positive (alpha horizon : ℝ) (Np : ℕ)
    (ha0 : 0 < alpha) (ha1 : alpha < 1) (hh : 0 < horizon) (hNp : 0 < Np) :
    ∃ p, CaputoInitialize alpha horizon Np = Except.ok p ∧
      ∀ wq ∈ p.terms, 0 < wq.2 := by
  have hcond : 0 < alpha ∧ alpha < 1 ∧ 0 < horizon ∧ 0 < Np :=
    ⟨ha0, ha1, hh, hNp⟩
  refine ⟨⟨alpha, horizon, pronyFit alpha horizon Np⟩, ?_, ?_⟩
  · simp only [CaputoInitialize, if_pos hcond]
  · intro wq hwq
    simp only [pronyFit, List.mem_map, List.mem_range] at hwq
    obtain ⟨i, _, rfl⟩ := hwq
    exact div_pos (pow_pos two_pos i) hh

/-- Witness for C5 at the concrete configuration alpha = 1/2, horizon = 5,
Np = 3. -/
theorem caputo_initialize_decay_positive_witness :
    ((0:ℝ) < 1/2 ∧ (1:ℝ)/2 < 1 ∧ (0:ℝ) < 5 ∧ 0 < 3) ∧
      ∃ p, CaputoInitialize (1/2) 5 3 = Except.ok p ∧
        ∀ wq ∈ p.terms, 0 < wq.2 :=
  ⟨⟨by norm_num, by norm_num, by norm_num, by norm_num⟩,
    caputo_initialize_decay_positive (1/2) 5 3 (by norm_num) (by norm_num)
      (by norm_num) (by norm_num)⟩

/-- C7: two calls to the initialize operation with identical inputs produce
identical FractionalKernelParameters values (the model is a pure function,
so equal inputs give bit-identical results). -/
theorem caputo_initialize_deterministic (a1 a2 h1 h2 : ℝ) (n1 n2 : ℕ)
    (ha : a1 = a2) (hh : h1 = h2) (hn : n1 = n2) :
    CaputoInitialize a1 h1 n1 = CaputoInitialize a2 h2 n2 := by
  rw [ha, hh, hn]

/-- Witness for C7 at the concrete configuration alpha = 1/10, horizon = 5,
Np = 3. -/
theorem caputo_initialize_deterministic_witness :
    ((1:ℝ)/10 = 1/10 ∧ (5:ℝ) = 5 ∧ (3:ℕ) = 3) ∧
      CaputoInitialize (1/10) 5 3 = CaputoInitialize (1/10) 5 3 :=
  ⟨⟨rfl, rfl, rfl⟩,
    caputo_initialize_deterministic (1/10) (1/10) 5 5 3 3 rfl rfl rfl⟩

/-! ### Theorems about the derivative evaluation -/

/-- The recurrence produces exactly one output per remaining sample. -/
theorem caputoRun_length (terms : List (ℝ × ℝ)) :
    ∀ (rest : List (ℝ × ℝ)) (prev : ℝ × ℝ) (mems : List ℝ),
      (caputoRun terms prev mems rest).length = rest.length := by
  intro rest
  induction rest with
  | nil => intro prev mems; rfl
  | cons s rest ih => intro prev mems; simp [caputoRun, ih]

/-- C2: on a valid parameter set and a non-empty signal whose times satisfy
the range precondition, caputo_derivative_linear succeeds with exactly one
derivative value per input sample, in input order, and the first value is
exactly 0. -/
theorem caputo_derivative_linear_output_aligned
    (params : FractionalKernelParameters) (samples : List (ℝ × ℝ))
    (hne : samples ≠ []) (hok : timesOK params.horizon (samples.map Prod.fst)) :
    ∃ out, caputo_derivative_linear params samples = Except.ok out ∧
      out.length = samples.length ∧ out.head? = some 0 := by
  refine ⟨caputoOutputs params samples, ?_, ?_, ?_⟩
  · simp only [caputo_derivative_linear, if_pos hok]
  · cases samples with
    | nil => cases hne rfl
    | cons s rest => simp [caputoOutputs, caputoRun_length]
  · cases samples with
    | nil => cases hne rfl
    | cons s rest => simp [caputoOutputs]

/-- Witness for C2 on the one-sample signal [(0, 0)] with horizon 5. -/
theorem caputo_derivative_linear_output_aligned_witness :
    ([((0:ℝ), (0:ℝ))] ≠ ([] : List (ℝ × ℝ))) ∧
      timesOK (FractionalKernelParameters.mk (1/10) 5 []).horizon
        (([((0:ℝ), (0:ℝ))]).map Prod.fst) ∧
      ∃ out,
        caputo_derivative_linear (FractionalKernelParameters.mk (1/10) 5 [])
          [((0:ℝ), (0:ℝ))] = Except.ok out ∧
        out.length = ([((0:ℝ), (0:ℝ))]).length ∧ out.head? = some 0 := by
  have hne : [((0:ℝ), (0:ℝ))] ≠ ([] : List (ℝ × ℝ)) := by simp
  have hok : timesOK (FractionalKernelParameters.mk (1/10) 5 []).horizon
      (([((0:ℝ), (0:ℝ))]).map Prod.fst) := by
    constructor
    · intro t ht
      simp only [List.map_cons, List.map_nil, List.mem_singleton] at ht
      subst ht
      refine ⟨le_refl 0, ?_⟩
      show (0:ℝ) ≤ 5
      norm_num
    · simp
  exact ⟨hne, hok, caputo_derivative_linear_output_aligned _ _ hne hok⟩

/-- C3: if any sample time exceeds the fitted horizon, or the times are not
monotonically increasing, caputo_derivative_linear fails with RangeError and
returns no partial results. -/
theorem caputo_derivative_linear_range_error
    (params : FractionalKernelParameters) (samples : List (ℝ × ℝ))
    (hbad : (∃ s ∈ samples, params.horizon < s.1) ∨
      ¬ (samples.map Prod.fst).Chain' (· < ·)) :
    caputo_derivative_linear params samples = Except.error RangeError.rangeError ∧
      ∀ out, caputo_derivative_linear params samples ≠ Except.ok out := by
  have hnot : ¬ timesOK params.horizon (samples.map Prod.fst) := by
    rintro ⟨hbound, hchain⟩
    rcases hbad with ⟨s, hs, hgt⟩ | hch
    · have hb := hbound s.1 (List.mem_map_of_mem Prod.fst hs)
      linarith [hb.2]
    · exact hch hchain
  refine ⟨?_, ?_⟩
  · simp only [caputo_derivative_linear, if_neg hnot]
  · intro out
    simp only [caputo_derivative_linear, if_neg hnot]
    exact fun hcon => Except.noConfusion hcon

/-- Witness for C3 on the signal [(6, 0)] with horizon 5 (sample time past
the horizon). -/
theorem caputo_derivative_linear_range_error_witness :
    ((∃ s ∈ [((6:ℝ), (0:ℝ))],
        (FractionalKernelParameters.mk (1/10) 5 []).horizon < s.1) ∨
      ¬ (([((6:ℝ), (0:ℝ))]).map Prod.fst).Chain' (· < ·)) ∧
      (caputo_derivative_linear (FractionalKernelParameters.mk (1/10) 5 [])
          [((6:ℝ), (0:ℝ))] = Except.error RangeError.rangeError ∧
        ∀ out, caputo_derivative_linear (FractionalKernelParameters.mk (1/10) 5 [])
          [((6:ℝ), (0:ℝ))] ≠ Except.ok out) := by
  have hbad : (∃ s ∈ [((6:ℝ), (0:ℝ))],
      (FractionalKernelParameters.mk (1/10) 5 []).horizon < s.1) ∨
      ¬ (([((6:ℝ), (0:ℝ))]).map Prod.fst).Chain' (· < ·) := by
    refine Or.inl ⟨(6, 0), List.mem_singleton_self _, ?_⟩
    show (5:ℝ) < 6
    norm_num
  exact ⟨hbad, caputo_derivative_linear_range_error _ _ hbad⟩

/-! ### Linearity of the derivative evaluation -/

/-- Pointwise linear combination a*xs + b*ys of two lists. -/
def lincomb (a b : ℝ) (xs ys : List ℝ) : List ℝ :=
  List.zipWith (fun x y => a * x + b * y) xs ys

theorem lincomb_cons (a b x y : ℝ) (xs ys : List ℝ) :
    lincomb a b (x :: xs) (y :: ys) = (a * x + b * y) :: lincomb a b xs ys :=
  rfl

theorem lincomb_replicate_zero (a b : ℝ) (n : ℕ) :
    lincomb a b (List.replicate n 0) (List.replicate n 0) =
      List.replicate n 0 := by
  induction n with
  | zero => rfl
  | succ n ih => simp [List.replicate_succ, lincomb_cons, ih]

theorem sum_lincomb (a b : ℝ) :
    ∀ (m1 m2 : List ℝ), m1.length = m2.length →
      (lincomb a b m1 m2).sum = a * m1.sum + b * m2.sum := by
  intro m1
  induction m1 with
  | nil =>
    intro m2 h
    cases m2 with
    | nil => simp [lincomb]
    | cons y ys => simp at h
  | cons x xs ih =>
    intro m2 h
    cases m2 with
    | nil => simp at h
    | cons y ys =>
      simp only [List.length_cons, Nat.succ.injEq] at h
      simp only [lincomb_cons, List.sum_cons, ih ys h]
      ring

/-- One memory-variable update is linear in the signal increment and in the
memory variable. -/
theorem memStep_linear (a b dt df1 df2 m1 m2 : ℝ) (term : ℝ × ℝ) :
    memStep dt (a * df1 + b * df2) term (a * m1 + b * m2) =
      a * memStep dt df1 term m1 + b * memStep dt df2 term m2 := by
  simp only [memStep]
  ring

/-- The full memory update is linear in the signal increment and the memory
variables. -/
theorem stepMemory_lincomb (a b dt df1 df2 : ℝ) :
    ∀ (terms : List (ℝ × ℝ)) (m1 m2 : List ℝ),
      stepMemory terms (lincomb a b m1 m2) dt (a * df1 + b * df2) =
        lincomb a b (stepMemory terms m1 dt df1) (stepMemory terms m2 dt df2) := by
  intro terms
  induction terms with
  | nil => intro m1 m2; rfl
  | cons term rest ih =>
    intro m1 m2
    cases m1 with
    | nil => rfl
    | cons x xs =>
      cases m2 with
      | nil => rfl
      | cons y ys =>
        simp only [lincomb_cons, stepMemory, List.zipWith_cons_cons]
        refine congrArg₂ List.cons (memStep_linear a b dt df1 df2 x y term) ?_
        simpa [stepMemory] using ih xs ys

theorem stepMemory_length (terms : List (ℝ × ℝ)) (mems : List ℝ) (dt df : ℝ) :
    (stepMemory terms mems dt df).length = min terms.length mems.length := by
  simp [stepMemory]

/-- The recurrence is linear in the signal values, the previous sample value
and the memory variables. -/
theorem caputoRun_lincomb (terms : List (ℝ × ℝ)) (a b : ℝ) :
    ∀ (restT : List ℝ) (fs gs : List ℝ) (pt pf pg : ℝ) (m1 m2 : List ℝ),
      m1.length = terms.length → m2.length = terms.length →
      fs.length = restT.length → gs.length = restT.length →
      caputoRun terms (pt, a * pf + b * pg) (lincomb a b m1 m2)
          (restT.zip (lincomb a b fs gs)) =
        lincomb a b (caputoRun terms (pt, pf) m1 (restT.zip fs))
          (caputoRun terms (pt, pg) m2 (restT.zip gs)) := by
  intro restT
  induction restT with
  | nil => intro fs gs pt pf pg m1 m2 _ _ _ _; rfl
  | cons t ts ih =>
    intro fs gs pt pf pg m1 m2 hm1 hm2 hf hg
    cases fs with
    | nil => simp at hf
    | cons f fs' =>
      cases gs with
      | nil => simp at hg
      | cons g gs' =>
        simp only [List.length_cons, Nat.succ.injEq] at hf hg
        have hdf : (a * f + b * g) - (a * pf + b * pg) =
            a * (f - pf) + b * (g - pg) := by ring
        simp only [lincomb_cons, List.zip_cons_cons, caputoRun]
        rw [hdf, stepMemory_lincomb]
        refine congrArg₂ List.cons ?_ ?_
        · refine sum_lincomb a b _ _ ?_
          rw [stepMemory_length, stepMemory_length, hm1, hm2]
        · exact ih fs' gs' t f g _ _
            (by rw [stepMemory_length, hm1, Nat.min_self])
            (by rw [stepMemory_length, hm2, Nat.min_self])
            hf hg

/-- C6: for a fixed valid configuration and a shared valid sample grid, the
differentiate operation is linear in the input signal: the derivative of
a*f + b*g is the pointwise combination a*differentiate(f) +
b*differentiate(g) (the model computes in exact real arithmetic, so the
floating-point tolerance is zero). -/
theorem caputo_derivative_linear_linearity (params : FractionalKernelParameters)
    (ts fs gs : List ℝ) (a b : ℝ)
    (hf : fs.length = ts.length) (hg : gs.length = ts.length)
    (hok : timesOK params.horizon ts) :
    caputo_derivative_linear params (ts.zip (lincomb a b fs gs)) =
      Except.ok (lincomb a b (caputoOutputs params (ts.zip fs))
        (caputoOutputs params (ts.zip gs))) ∧
    caputo_derivative_linear params (ts.zip fs) =
      Except.ok (caputoOutputs params (ts.zip fs)) ∧
    caputo_derivative_linear params (ts.zip gs) =
      Except.ok (caputoOutputs params (ts.zip gs)) := by
  have hlen : (lincomb a b fs gs).length = ts.length := by
    simp [lincomb, hf, hg]
  have hmapc : ((ts.zip (lincomb a b fs gs)).map Prod.fst) = ts :=
    List.map_fst_zip ts _ (le_of_eq hlen.symm)
  have hmapf : ((ts.zip fs).map Prod.fst) = ts :=
    List.map_fst_zip ts fs (le_of_eq hf.symm)
  have hmapg : ((ts.zip gs).map Prod.fst) = ts :=
    List.map_fst_zip ts gs (le_of_eq hg.symm)
  refine ⟨?_, ?_, ?_⟩
  · rw [caputo_derivative_linear, hmapc, if_pos hok]
    refine congrArg Except.ok ?_
    cases ts with
    | nil =>
      cases fs with
      | nil =>
        cases gs with
        | nil => rfl
        | cons g gs' => simp at hg
      | cons f fs' => simp at hf
    | cons t ts' =>
      cases fs with
      | nil => simp at hf
      | cons f fs' =>
        cases gs with
        | nil => simp at hg
        | cons g gs' =>
          simp only [List.length_cons, Nat.succ.injEq] at hf hg
          simp only [lincomb_cons, List.zip_cons_cons, caputoOutputs]
          have hz : a * 0 + b * 0 = (0:ℝ) := by ring
          rw [← lincomb_replicate_zero a b params.terms.length]
          rw [caputoRun_lincomb params.terms a b ts' fs' gs' t f g _ _
            (by simp) (by simp) hf hg]
          rw [lincomb_replicate_zero]
          simp [lincomb_cons, hz]
  · rw [caputo_derivative_linear, hmapf, if_pos hok]
  · rw [caputo_derivative_linear, hmapg, if_pos hok]

/-- Witness for C6 on the one-sample grid [0] with signals [1] and [2] and
scalars a = 2, b = 3. -/
theorem caputo_derivative_linear_linearity_witness :
    (([(1:ℝ)]).length = ([(0:ℝ)]).length ∧
      ([(2:ℝ)]).length = ([(0:ℝ)]).length ∧
      timesOK (FractionalKernelParameters.mk (1/10) 5 []).horizon [(0:ℝ)]) ∧
      (caputo_derivative_linear (FractionalKernelParameters.mk (1/10) 5 [])
          (([(0:ℝ)]).zip (lincomb 2 3 [(1:ℝ)] [(2:ℝ)])) =
        Except.ok (lincomb 2 3
          (caputoOutputs (FractionalKernelParameters.mk (1/10) 5 [])
            (([(0:ℝ)]).zip [(1:ℝ)]))
          (caputoOutputs (FractionalKernelParameters.mk (1/10) 5 [])
            (([(0:ℝ)]).zip [(2:ℝ)]))) ∧
        caputo_derivative_linear (FractionalKernelParameters.mk (1/10) 5 [])
          (([(0:ℝ)]).zip [(1:ℝ)]) =
          Except.ok (caputoOutputs (FractionalKernelParameters.mk (1/10) 5 [])
            (([(0:ℝ)]).zip [(1:ℝ)])) ∧
        caputo_derivative_linear (FractionalKernelParameters.mk (1/10) 5 [])
          (([(0:ℝ)]).zip [(2:ℝ)]) =
          Except.ok (caputoOutputs (FractionalKernelParameters.mk (1/10) 5 [])
            (([(0:ℝ)]).zip [(2:ℝ)]))) := by
  have hf : ([(1:ℝ)]).length = ([(0:ℝ)]).length := rfl
  have hg : ([(2:ℝ)]).length = ([(0:ℝ)]).length := rfl
  have hok : timesOK (FractionalKernelParameters.mk (1/10) 5 []).horizon
      [(0:ℝ)] := by
    constructor
    · intro t ht
      simp only [List.mem_singleton] at ht
      subst ht
      refine ⟨le_refl 0, ?_⟩
      show (0:ℝ) ≤ 5
      norm_num
    · simp
  exact ⟨⟨hf, hg, hok⟩,
    caputo_derivative_linear_linearity _ _ _ _ 2 3 hf hg hok⟩

/-! ### Hyperelastic constitutive-law code
  (translated from src/src/biomechanics/models/hyperelastic.py) -/

/-- Interface of a hyperelastic law: map a deformation-gradient tensor to a
stress tensor of the same shape.  The index type `ι` stands for the numpy
array shape. -/
structure HyperelasticModel (ι : Type) : Type where
  pk2 : (ι → ℝ) → (ι → ℝ)

/-- np.zeros_like: an all-zero array of the shape of the argument. -/
def np_zeros_like {ι : Type} (_A : ι → ℝ) : ι → ℝ := fun _ => 0

/-- CompositeHyperelasticModel: a list of sub-models. -/
structure CompositeHyperelasticModel (ι : Type) : Type where
  models : List (HyperelasticModel ι)

/-- CompositeHyperelasticModel.pk2: start from np.zeros_like(F) and add each
sub-model's pk2(F) elementwise, in list order. -/
def CompositeHyperelasticModel.pk2 {ι : Type}
    (self : CompositeHyperelasticModel ι) (F : ι → ℝ) : ι → ℝ :=
  self.models.foldl (fun res law => fun idx => res idx + law.pk2 F idx)
    (np_zeros_like F)

theorem composite_foldl_eval {ι : Type} (F : ι → ℝ) :
    ∀ (models : List (HyperelasticModel ι)) (acc : ι → ℝ) (idx : ι),
      (models.foldl (fun res law => fun i => res i + law.pk2 F i) acc) idx =
        acc idx + (models.map (fun law => law.pk2 F idx)).sum := by
  intro models
  induction models with
  | nil => intro acc idx; simp
  | cons law rest ih =>
    intro acc idx
    simp only [List.foldl_cons, List.map_cons, List.sum_cons]
    rw [ih]
    ring

/-- C8: the composite stress is the elementwise sum of the sub-models'
stresses, and the composite with no sub-models returns the all-zero tensor
of F's shape. -/
theorem composite_pk2_is_sum {ι : Type} (self : CompositeHyperelasticModel ι)
    (F : ι → ℝ) :
    (∀ idx, self.pk2 F idx =
      (self.models.map (fun law => law.pk2 F idx)).sum) ∧
    (CompositeHyperelasticModel.mk ([] : List (HyperelasticModel ι))).pk2 F =
      np_zeros_like F := by
  constructor
  · intro idx
    obtain ⟨models⟩ := self
    have h := composite_foldl_eval F models (np_zeros_like F) idx
    simp only [CompositeHyperelasticModel.pk2] at *
    rw [h]
    simp [np_zeros_like]
  · rfl

/-- Modelled from the spec: compute_right_cauchy_green of
biomechanics.kinematics.mapping is missing from the provided sources; it is
the right Cauchy-Green tensor C = F^T F of each batch entry, an array of the
same shape as F.  Only its shape is consumed by NeoHookeanModel.pk2. -/
noncomputable def compute_right_cauchy_green {m : ℕ}
    (F : Fin m → Fin 3 → Fin 3 → ℝ) : Fin m → Fin 3 → Fin 3 → ℝ :=
  fun k i j => ∑ l : Fin 3, F k l i * F k l j

/-- np.zeros_like on a batched 3x3 array. -/
noncomputable def np_zeros_like3 {m : ℕ}
    (_A : Fin m → Fin 3 → Fin 3 → ℝ) : Fin m → Fin 3 → Fin 3 → ℝ :=
  fun _ _ _ => 0

/-- The fancy-index assignment `res[:, [0, 1, 2], [0, 1, 2]] = v`: set every
diagonal entry of every batch entry to `v`. -/
noncomputable def setDiag {m : ℕ} (A : Fin m → Fin 3 → Fin 3 → ℝ) (v : ℝ) :
    Fin m → Fin 3 → Fin 3 → ℝ :=
  fun k i j => if i = j then v else A k i j

/-- NeoHookeanModel: bulk modulus mu. -/
structure NeoHookeanModel : Type where
  mu : ℝ

/-- NeoHookeanModel.pk2: compute C (used only through np.zeros_like), then
set the diagonal of the zero array to mu. -/
noncomputable def NeoHookeanModel.pk2 (self : NeoHookeanModel) {m : ℕ}
    (F : Fin m → Fin 3 → Fin 3 → ℝ) : Fin m → Fin 3 → Fin 3 → ℝ :=
  setDiag (np_zeros_like3 (compute_right_cauchy_green F)) self.mu

/-- C9: NeoHookeanModel.pk2 returns the tensor whose diagonal entries equal
mu and whose off-diagonal entries are zero, and its value does not depend on
the entries of F, only on its shape. -/
theorem neo_hookean_pk2_diagonal (self : NeoHookeanModel) {m : ℕ}
    (F G : Fin m → Fin 3 → Fin 3 → ℝ) :
    (∀ k i j, self.pk2 F k i j = if i = j then self.mu else 0) ∧
    self.pk2 F = self.pk2 G := by
  constructor
  · intro k i j
    rfl
  · rfl

/-! ### get_change_of_basis_tensor -/

/-- np.cross on 3-vectors. -/
def cross3 (a b : Fin 3 → ℝ) : Fin 3 → ℝ :=
  ![a 1 * b 2 - a 2 * b 1, a 2 * b 0 - a 0 * b 2, a 0 * b 1 - a 1 * b 0]

/-- numpy.linalg.norm on a 3-vector: the Euclidean norm. -/
noncomputable def norm3 (v : Fin 3 → ℝ) : ℝ :=
  Real.sqrt (v 0 ^ 2 + v 1 ^ 2 + v 2 ^ 2)

/-- get_change_of_basis_tensor: compute v_n = cross(v_f, v_s); if its norm
is positive, normalize it and return the matrix with rows v_f, v_s, v_n;
otherwise raise ValueError. -/
noncomputable def get_change_of_basis_tensor (v_f v_s : Fin 3 → ℝ) :
    Except ValueError (Fin 3 → Fin 3 → ℝ) :=
  let v_n := cross3 v_f v_s
  let v_n_norm := norm3 v_n
  if 0 < v_n_norm then
    Except.ok ![v_f, v_s, fun i => v_n i / v_n_norm]
  else
    Except.error ValueError.valueError

/-- C10: get_change_of_basis_tensor raises ValueError exactly when the cross
product of v_f and v_s has zero norm; otherwise it returns the matrix whose
rows are v_f (unnormalized), v_s (unnormalized) and the unit-normalized
cross product. -/
theorem change_of_basis_error_iff (v_f v_s : Fin 3 → ℝ) :
    (get_change_of_basis_tensor v_f v_s = Except.error ValueError.valueError ↔
      norm3 (cross3 v_f v_s) = 0) ∧
    (norm3 (cross3 v_f v_s) ≠ 0 →
      get_change_of_basis_tensor v_f v_s = Except.ok
        ![v_f, v_s, fun i => cross3 v_f v_s i / norm3 (cross3 v_f v_s)]) := by
  have hnn : 0 ≤ norm3 (cross3 v_f v_s) := Real.sqrt_nonneg _
  constructor
  · constructor
    · intro he
      by_contra hne
      have hpos : 0 < norm3 (cross3 v_f v_s) := lt_of_le_of_ne hnn (Ne.symm hne)
      simp only [get_change_of_basis_tensor, if_pos hpos] at he
      exact Except.noConfusion he
    · intro hz
      have hnpos : ¬ 0 < norm3 (cross3 v_f v_s) := by
        rw [hz]
        exact lt_irrefl 0
      simp only [get_change_of_basis_tensor, if_neg hnpos]
  · intro hne
    have hpos : 0 < norm3 (cross3 v_f v_s) := lt_of_le_of_ne hnn (Ne.symm hne)
    simp only [get_change_of_basis_tensor, if_pos hpos]

/-- Witness for C10 on the orthonormal pair v_f = (1,0,0), v_s = (0,1,0),
whose cross product (0,0,1) has norm 1. -/
theorem change_of_basis_error_iff_witness :
    (norm3 (cross3 ![(1:ℝ), 0, 0] ![(0:ℝ), 1, 0]) ≠ 0) ∧
    get_change_of_basis_tensor ![(1:ℝ), 0, 0] ![(0:ℝ), 1, 0] = Except.ok
      ![![(1:ℝ), 0, 0], ![(0:ℝ), 1, 0],
        fun i => cross3 ![(1:ℝ), 0, 0] ![(0:ℝ), 1, 0] i /
          norm3 (cross3 ![(1:ℝ), 0, 0] ![(0:ℝ), 1, 0])] := by
  have hval : norm3 (cross3 ![(1:ℝ), 0, 0] ![(0:ℝ), 1, 0]) = 1 := by
    have hc : cross3 ![(1:ℝ), 0, 0] ![(0:ℝ), 1, 0] = ![(0:ℝ), 0, 1] := by
      funext i
      fin_cases i <;> norm_num [cross3]
    rw [hc]
    show Real.sqrt ((0:ℝ) ^ 2 + (0:ℝ) ^ 2 + (1:ℝ) ^ 2) = 1
    norm_num
  have hne : norm3 (cross3 ![(1:ℝ), 0, 0] ![(0:ℝ), 1, 0]) ≠ 0 := by
    rw [hval]
    norm_num
  exact ⟨hne, (change_of_basis_error_iff _ _).2 hne⟩
